import Mathlib

/-!
Verification development for the merge-operand resolution and checkpoint
subsystem of an embedded log-structured key-value store.

The counter merge operator is translated from
src/examples/test_merge_memory.rs.  The merge resolver, row entry store,
sequence clock and checkpoint manager live outside the provided sources,
so they are modelled from the specification (each such definition carries
a doc comment saying so).
-/

namespace SlateDB

/-- A byte string, modelled as a list of naturals (each conceptually < 256). -/
abbrev Bytes := List Nat

/-- Little-endian decoding of a byte list into a natural number
(u64 little-endian from_le_bytes semantics when the list has 8 bytes). -/
def leToNat : Bytes → Nat
  | [] => 0
  | b :: bs => b + 256 * leToNat bs

/-- Little-endian encoding of a natural into a fixed number of bytes
(to_le_bytes semantics: k least-significant base-256 digits). -/
def natToLe : Nat → Nat → Bytes
  | 0, _ => []
  | k + 1, n => n % 256 :: natToLe k (n / 256)

/-- u64 little-endian encoding: 8 bytes. -/
def u64ToLe (n : Nat) : Bytes := natToLe 8 n

/-- Error type of the registered merge operator contract
(the MergeOperatorError the operator may return). -/
inductive MergeOperatorError where
  | operatorFailure (message : Bytes)
  deriving DecidableEq

/-- A Rust panic raised inside CounterMergeOperator.merge: a failed
try_into().unwrap() on a slice whose length is not 8, or an overflowing
u64 addition (debug overflow check). -/
inductive RustPanic where
  | badLength
  | addOverflow
  deriving DecidableEq

/-- The effect type of the counter operator from the example code: it either
returns Ok bytes, returns the operator error variant, or panics. -/
abbrev CtrErr := Sum RustPanic MergeOperatorError

instance {a b : Type} [DecidableEq a] [DecidableEq b] : DecidableEq (Except a b) :=
  fun x y =>
    match x, y with
    | .error e1, .error e2 =>
      if h : e1 = e2 then .isTrue (by rw [h])
      else .isFalse (by intro hc; injection hc; contradiction)
    | .error _, .ok _ => .isFalse (by intro hc; cases hc)
    | .ok _, .error _ => .isFalse (by intro hc; cases hc)
    | .ok v1, .ok v2 =>
      if h : v1 = v2 then .isTrue (by rw [h])
      else .isFalse (by intro hc; injection hc; contradiction)

/-- u64 from_le_bytes applied through try_into: panics (badLength) unless the
byte list has exactly 8 bytes. -/
def decodeU64 (b : Bytes) : Except RustPanic Nat :=
  if b.length = 8 then .ok (leToNat b) else .error .badLength

/-- CounterMergeOperator.merge from src/examples/test_merge_memory.rs:
decode the existing value (0 when absent), decode the operand, add, and
return the little-endian encoding of the sum.  Decoding panics on any
length other than 8 and the addition panics on u64 overflow. -/
def counterMergeRust (existingValue : Option Bytes) (value : Bytes) :
    Except CtrErr Bytes :=
  match (match existingValue with
         | none => Except.ok 0
         | some v => decodeU64 v) with
  | .error p => .error (.inl p)
  | .ok existing =>
    match decodeU64 value with
    | .error p => .error (.inl p)
    | .ok increment =>
      if existing + increment < 2 ^ 64 then
        .ok (u64ToLe (existing + increment))
      else
        .error (.inl .addOverflow)

/-- Whether an optional existing value decodes without a length panic. -/
def existingLenOk (e : Option Bytes) : Bool :=
  match e with
  | none => true
  | some b => b.length == 8

/-- The u64 an optional existing value decodes to (0 when absent). -/
def existingVal (e : Option Bytes) : Nat :=
  match e with
  | none => 0
  | some b => leToNat b

/- Basic facts about the little-endian encoding. -/

theorem natToLe_length (k n : Nat) : (natToLe k n).length = k := by
  induction k generalizing n with
  | zero => rfl
  | succ k ih => simp [natToLe, ih]

theorem u64ToLe_length (n : Nat) : (u64ToLe n).length = 8 :=
  natToLe_length 8 n

theorem mod_mul_256 (b n : Nat) (hb : 0 < b) :
    n % (256 * b) = n % 256 + 256 * (n / 256 % b) := by
  have h1 : n = 256 * (n / 256) + n % 256 := (Nat.div_add_mod n 256).symm
  have h2 : n / 256 = b * (n / 256 / b) + n / 256 % b :=
    (Nat.div_add_mod (n / 256) b).symm
  have hr : n % 256 < 256 := Nat.mod_lt _ (by omega)
  have hs : n / 256 % b < b := Nat.mod_lt _ hb
  have hsplit : n = (n % 256 + 256 * (n / 256 % b)) + (256 * b) * (n / 256 / b) := by
    calc n = 256 * (n / 256) + n % 256 := h1
    _ = 256 * (b * (n / 256 / b) + n / 256 % b) + n % 256 := by rw [← h2]
    _ = (n % 256 + 256 * (n / 256 % b)) + (256 * b) * (n / 256 / b) := by ring
  calc n % (256 * b)
      = ((n % 256 + 256 * (n / 256 % b)) + (256 * b) * (n / 256 / b)) % (256 * b) := by
        rw [← hsplit]
    _ = (n % 256 + 256 * (n / 256 % b)) % (256 * b) := by
        rw [Nat.add_mul_mod_self_left]
    _ = n % 256 + 256 * (n / 256 % b) := by
        apply Nat.mod_eq_of_lt
        have : 256 * (n / 256 % b) ≤ 256 * (b - 1) := by
          apply Nat.mul_le_mul_left
          omega
        omega

theorem leToNat_natToLe (k n : Nat) : leToNat (natToLe k n) = n % 256 ^ k := by
  induction k generalizing n with
  | zero => simp [natToLe, leToNat, Nat.mod_one]
  | succ k ih =>
    have hpow : (0:Nat) < 256 ^ k := Nat.pos_pow_of_pos k (by omega)
    calc leToNat (natToLe (k + 1) n)
        = n % 256 + 256 * leToNat (natToLe k (n / 256)) := by
          simp [natToLe, leToNat]
      _ = n % 256 + 256 * (n / 256 % 256 ^ k) := by rw [ih]
      _ = n % (256 * 256 ^ k) := (mod_mul_256 (256 ^ k) n hpow).symm
      _ = n % 256 ^ (k + 1) := by rw [pow_succ, Nat.mul_comm]

theorem pow256_eq : (256 : Nat) ^ 8 = 2 ^ 64 := by norm_num

theorem leToNat_u64ToLe (n : Nat) (h : n < 2 ^ 64) : leToNat (u64ToLe n) = n := by
  rw [u64ToLe, leToNat_natToLe, pow256_eq, Nat.mod_eq_of_lt h]

/-- Modelled from the spec: the merge operator contract of the Merge Operator
Registry (not under the provided sources).  Given the current folded value
(absent if none yet) and one new operand, produce the new folded value, or
fail with an operator error of type e. -/
abbrev MergeFn (e : Type) := Option Bytes → Bytes → Except e Bytes

/-- Modelled from the spec: sequential application of merge, one operand at a
time, oldest first, threading the folded value; this is the per-operand path
of the Merge Resolver. -/
def mergeSeq {e : Type} (m : MergeFn e) (existing : Option Bytes) :
    List Bytes → Except e (Option Bytes)
  | [] => .ok existing
  | o :: os =>
    match m existing o with
    | .error err => .error err
    | .ok v => mergeSeq m (some v) os

/-- Modelled from the spec: the default batched contract merge_batch of the
Merge Operator Registry (not under the provided sources): fold merge over the
ordered operands, oldest to newest, against the existing value. -/
def mergeBatchDefault {e : Type} (m : MergeFn e) (existing : Option Bytes)
    (operands : List Bytes) : Except e (Option Bytes) :=
  operands.foldl
    (fun acc o =>
      match acc with
      | .error err => .error err
      | .ok cur =>
        match m cur o with
        | .error err => .error err
        | .ok v => .ok (some v))
    (.ok existing)

/-- Modelled from the spec: the kind of a row entry, Put, Merge or Delete. -/
inductive ValueKind where
  | put (v : Bytes)
  | merge (v : Bytes)
  | delete
  deriving DecidableEq

/-- Modelled from the spec: one mutation record of the Row Entry Store (not
under the provided sources): key, kind, strictly increasing sequence number,
write timestamp and advisory expiration. -/
structure RowEntry where
  key : Bytes
  kind : ValueKind
  seq : Nat
  timestamp : Nat
  expireAt : Option Nat
  deriving DecidableEq

/-- Modelled from the spec: the base outcome of walking a merge chain
newest-first: a Put base, a Delete terminating the chain, or exhaustion
with no base. -/
inductive BaseOutcome where
  | putBase (v : Bytes)
  | deleteBase
  | noBase
  deriving DecidableEq

/-- Modelled from the spec: the existing value a base outcome contributes to
resolution: the put value, or absent for a delete or a missing base. -/
def baseValue : BaseOutcome → Option Bytes
  | .putBase v => some v
  | .deleteBase => none
  | .noBase => none

/-- Modelled from the spec: walking a newest-first chain of entry kinds,
collect the merge operands (newest first) until a base entry is reached or
the chain is exhausted; a Put or Delete stops the walk. -/
def splitChain : List ValueKind → List Bytes × BaseOutcome
  | [] => ([], .noBase)
  | .put v :: _ => ([], .putBase v)
  | .delete :: _ => ([], .deleteBase)
  | .merge o :: rest =>
    let p := splitChain rest
    (o :: p.1, p.2)

/-- Modelled from the spec: resolution errors: a Merge entry met with no
operator registered (configuration error), or a failure of the operator. -/
inductive ResolveError (e : Type) where
  | mergeConfiguration
  | operatorError (err : e)
  deriving DecidableEq

/-- Lift an operator result into a resolution result. -/
def liftResolve {e : Type} : Except e (Option Bytes) →
    Except (ResolveError e) (Option Bytes)
  | .error err => .error (.operatorError err)
  | .ok v => .ok v

/-- Modelled from the spec: resolution of an already-split chain: with no
merge operands the base value is the result; otherwise the registered
operator folds the operands oldest-first (newest-first run reversed) into the
base value, and a missing operator is a configuration error. -/
def resolveSplit {e : Type} (reg : Option (MergeFn e)) :
    List Bytes × BaseOutcome → Except (ResolveError e) (Option Bytes)
  | ([], b) => .ok (baseValue b)
  | (o :: ops, b) =>
    match reg with
    | none => .error .mergeConfiguration
    | some m => liftResolve (mergeSeq m (baseValue b) ((o :: ops).reverse))

/-- Modelled from the spec: the Merge Resolver (not under the provided
sources).  Walk the newest-first chain to the base and resolve the collected
operand run against the base value. -/
def resolveChain {e : Type} (reg : Option (MergeFn e)) (chain : List ValueKind) :
    Except (ResolveError e) (Option Bytes) :=
  resolveSplit reg (splitChain chain)

/-- Modelled from the spec: the fixed batch capacity of the resolver's
bounded working buffer (the example code processes chunks of 100). -/
def batchSize : Nat := 100

/-- Split a list into consecutive chunks of at most batchSize elements,
with explicit fuel bounding the recursion depth. -/
def chunkedAux : Nat → List Bytes → List (List Bytes)
  | 0, _ => []
  | _, [] => []
  | fuel + 1, o :: os => (o :: os).take batchSize :: chunkedAux fuel ((o :: os).drop batchSize)

/-- Modelled from the spec: split an operand run into consecutive chunks of at
most batchSize operands, preserving order. -/
def chunked (l : List Bytes) : List (List Bytes) := chunkedAux l.length l

/-- Modelled from the spec: apply the batched operator chunk by chunk,
oldest chunk first, threading the folded base value. -/
def mergeBatchedRun {e : Type} (m : MergeFn e) (existing : Option Bytes) :
    List (List Bytes) → Except e (Option Bytes)
  | [] => .ok existing
  | b :: bs =>
    match mergeBatchDefault m existing b with
    | .error err => .error err
    | .ok v => mergeBatchedRun m v bs

/-- Modelled from the spec: the batched resolver on an already-split chain:
as resolveSplit, but the oldest-first operand run is processed through
merge_batch on consecutive chunks of at most batchSize operands, so the
working buffer handed to the operator never exceeds the batch capacity. -/
def resolveBatchedSplit {e : Type} (reg : Option (MergeFn e)) :
    List Bytes × BaseOutcome → Except (ResolveError e) (Option Bytes)
  | ([], b) => .ok (baseValue b)
  | (o :: ops, b) =>
    match reg with
    | none => .error .mergeConfiguration
    | some m =>
      liftResolve (mergeBatchedRun m (baseValue b) (chunked ((o :: ops).reverse)))

/-- Modelled from the spec: the batched Merge Resolver (not under the
provided sources): walk the newest-first chain to the base and resolve the
collected operand run in bounded batches. -/
def resolveBatchedChain {e : Type} (reg : Option (MergeFn e))
    (chain : List ValueKind) : Except (ResolveError e) (Option Bytes) :=
  resolveBatchedSplit reg (splitChain chain)

/-- Whether an entry's sequence number passes an optional ceiling. -/
def ceilOk (ceiling : Option Nat) (s : Nat) : Bool :=
  match ceiling with
  | none => true
  | some c => decide (s ≤ c)

/-- Modelled from the spec: scan_chain of the Row Entry Store (not under the
provided sources): the entries for a key with sequence number at or below the
optional ceiling, newest first (the log itself is kept in append order,
oldest first). -/
def scanChain (log : List RowEntry) (k : Bytes) (ceiling : Option Nat) :
    List RowEntry :=
  (log.filter (fun entry => entry.key == k && ceilOk ceiling entry.seq)).reverse

/-- Modelled from the spec: the state of one open database: the append-only
row entry log, the Sequence Clock counter (the last issued sequence number),
and the Merge Operator Registry (at most one operator, fixed at open). -/
structure DbState (e : Type) where
  log : List RowEntry
  clock : Nat
  mergeOperator : Option (MergeFn e)

/-- Modelled from the spec: accept one mutation: draw the next sequence
number from the Sequence Clock and append the entry to the log. -/
def writeEntry {e : Type} (db : DbState e) (k : Bytes) (vk : ValueKind) :
    DbState e :=
  let s := db.clock + 1
  { db with
    clock := s
    log := db.log ++ [{ key := k, kind := vk, seq := s, timestamp := s, expireAt := none }] }

/-- Modelled from the spec: put(key, value) appends a Put base entry. -/
def put {e : Type} (db : DbState e) (k v : Bytes) : DbState e :=
  writeEntry db k (.put v)

/-- Modelled from the spec: merge(key, operand) appends a Merge entry and does
not invoke the operator; resolution is deferred to read time. -/
def mergeKey {e : Type} (db : DbState e) (k o : Bytes) : DbState e :=
  writeEntry db k (.merge o)

/-- Modelled from the spec: delete(key) appends a Delete base entry. -/
def deleteKey {e : Type} (db : DbState e) (k : Bytes) : DbState e :=
  writeEntry db k (.delete)

/-- Apply a list of merge operands to one key, in call order (oldest first in
the list). -/
def applyMerges {e : Type} (db : DbState e) (k : Bytes) : List Bytes → DbState e
  | [] => db
  | o :: os => applyMerges (mergeKey db k o) k os

/-- The newest-first chain of entry kinds for a key (no ceiling). -/
def chainKinds {e : Type} (db : DbState e) (k : Bytes) : List ValueKind :=
  (scanChain db.log k none).map (fun entry => entry.kind)

/-- Modelled from the spec: resolution of a key bounded by an optional
sequence ceiling: scan the chain and resolve it with the registered
operator. -/
def getAt {e : Type} (db : DbState e) (k : Bytes) (ceiling : Option Nat) :
    Except (ResolveError e) (Option Bytes) :=
  resolveChain db.mergeOperator
    ((scanChain db.log k ceiling).map (fun entry => entry.kind))

/-- Modelled from the spec: get(key) resolves against the latest sequence
ceiling (no bound). -/
def get {e : Type} (db : DbState e) (k : Bytes) :
    Except (ResolveError e) (Option Bytes) :=
  getAt db k none

/-- Modelled from the spec: the application-facing operations. -/
inductive DbOp where
  | opPut (k v : Bytes)
  | opMerge (k o : Bytes)
  | opDelete (k : Bytes)
  | opGet (k : Bytes)
  deriving DecidableEq

/-- Modelled from the spec: the state transition of one operation; get is a
pure read and leaves the state unchanged. -/
def applyOp {e : Type} (db : DbState e) : DbOp → DbState e
  | .opPut k v => put db k v
  | .opMerge k o => mergeKey db k o
  | .opDelete k => deleteKey db k
  | .opGet _ => db

/-- Whether an operation is a pure read (a get). -/
def readOnlyOp : DbOp → Bool
  | .opGet _ => true
  | _ => false

/-- Run a list of operations in order. -/
def runOps {e : Type} (db : DbState e) : List DbOp → DbState e
  | [] => db
  | op :: ops => runOps (applyOp db op) ops

/-- Modelled from the spec: errors of the Object Store Gateway. -/
inductive StoreError where
  | ioFailure
  deriving DecidableEq

/-- Modelled from the spec: the Object Store Gateway collaborator (not under
the provided sources): a durable blob put keyed by path. -/
structure ObjectStoreGateway where
  putBlob : Bytes → Bytes → Except StoreError Unit

/-- Modelled from the spec: a checkpoint scope: the whole database or a
bounded key subset. -/
inductive CheckpointScope where
  | all
  | bounded (lo hi : Bytes)
  deriving DecidableEq

/-- Modelled from the spec: checkpoint creation options, minimally an
optional expiration. -/
structure CheckpointOptions where
  expireAt : Option Nat
  deriving DecidableEq

/-- Modelled from the spec: an immutable named checkpoint record. -/
structure Checkpoint where
  id : Nat
  scope : CheckpointScope
  sequenceNumber : Nat
  manifestRef : Nat
  createdAt : Nat
  expireAt : Option Nat
  deriving DecidableEq

/-- Modelled from the spec: the Checkpoint Manager state: registered
checkpoints, pinned manifest references and the next checkpoint id. -/
structure CkptState where
  checkpoints : List Checkpoint
  pinnedManifests : List Nat
  nextId : Nat
  deriving DecidableEq

/-- Modelled from the spec: checkpoint failure modes; a failed durable write
is a persistence error. -/
inductive CheckpointError where
  | persistence (err : StoreError)
  deriving DecidableEq

/-- Modelled from the spec: the manifest reference covering the durable state
restricted to a scope (manifest layout itself is out of scope). -/
def resolveManifestRef {e : Type} (db : DbState e) (_scope : CheckpointScope) : Nat :=
  db.log.length

/-- Modelled from the spec: the blob path of a checkpoint record. -/
def checkpointPath (id : Nat) : Bytes := natToLe 8 id

/-- Modelled from the spec: a self-describing encoding of a checkpoint
record (exact encoding left to the implementer). -/
def encodeCheckpoint (c : Checkpoint) : Bytes :=
  natToLe 8 c.id ++ natToLe 8 c.sequenceNumber ++ natToLe 8 c.manifestRef ++
    natToLe 8 c.createdAt

/-- Modelled from the spec: the checkpoint record constructed by
create_checkpoint: it pins the current sequence number from the Sequence
Clock and the manifest reference for the scope. -/
def mkCheckpointRecord {e : Type} (db : DbState e) (st : CkptState)
    (scope : CheckpointScope) (opts : CheckpointOptions) (now : Nat) : Checkpoint :=
  { id := st.nextId
    scope := scope
    sequenceNumber := db.clock
    manifestRef := resolveManifestRef db scope
    createdAt := now
    expireAt := opts.expireAt }

/-- Modelled from the spec: create_checkpoint (not under the provided
sources): pin the current sequence number, resolve the manifest for the
scope, persist the record durably through the gateway, and only then
register the checkpoint; a failed durable write aborts the whole call. -/
def createCheckpoint {e : Type} (gw : ObjectStoreGateway) (db : DbState e)
    (st : CkptState) (scope : CheckpointScope) (opts : CheckpointOptions)
    (now : Nat) : Except CheckpointError (CkptState × Checkpoint) :=
  match gw.putBlob (checkpointPath st.nextId)
      (encodeCheckpoint (mkCheckpointRecord db st scope opts now)) with
  | .error err => .error (.persistence err)
  | .ok _ =>
    .ok ({ checkpoints := mkCheckpointRecord db st scope opts now :: st.checkpoints
           pinnedManifests :=
             (mkCheckpointRecord db st scope opts now).manifestRef :: st.pinnedManifests
           nextId := st.nextId + 1 }, mkCheckpointRecord db st scope opts now)

/-- Modelled from the spec: create_checkpoint as seen by the caller holding
the manager state: on failure the caller keeps the prior state unchanged. -/
def createCheckpointRun {e : Type} (gw : ObjectStoreGateway) (db : DbState e)
    (st : CkptState) (scope : CheckpointScope) (opts : CheckpointOptions)
    (now : Nat) : CkptState × Except CheckpointError Checkpoint :=
  match createCheckpoint gw db st scope opts now with
  | .error err => (st, .error err)
  | .ok (st2, c) => (st2, .ok c)

/- Helper lemmas about the operator folds. -/

theorem foldl_error_absorb {e : Type} (m : MergeFn e) (err : e) (os : List Bytes) :
    os.foldl
      (fun acc o =>
        match acc with
        | .error err2 => .error err2
        | .ok cur =>
          match m cur o with
          | .error err2 => .error err2
          | .ok v => .ok (some v))
      (Except.error err : Except e (Option Bytes)) = Except.error err := by
  induction os with
  | nil => rfl
  | cons o os ih => simpa [List.foldl] using ih

theorem mergeBatchDefault_eq {e : Type} (m : MergeFn e) (existing : Option Bytes)
    (operands : List Bytes) :
    mergeBatchDefault m existing operands = mergeSeq m existing operands := by
  induction operands generalizing existing with
  | nil => rfl
  | cons o os ih =>
    simp only [mergeBatchDefault, List.foldl, mergeSeq]
    cases h : m existing o with
    | error err => simpa [h] using foldl_error_absorb m err os
    | ok v => simpa [h] using ih (some v)

theorem mergeSeq_append {e : Type} (m : MergeFn e) (l1 l2 : List Bytes)
    (existing : Option Bytes) :
    mergeSeq m existing (l1 ++ l2) =
      match mergeSeq m existing l1 with
      | .error err => .error err
      | .ok v => mergeSeq m v l2 := by
  induction l1 generalizing existing with
  | nil => rfl
  | cons o os ih =>
    simp only [List.cons_append, mergeSeq]
    cases m existing o with
    | error err => rfl
    | ok v => exact ih (some v)

theorem chunkedAux_length_le (fuel : Nat) (l : List Bytes)
    (c : List Bytes) (hc : c ∈ chunkedAux fuel l) : c.length ≤ batchSize := by
  induction fuel generalizing l c with
  | zero => simp [chunkedAux] at hc
  | succ fuel ih =>
    cases l with
    | nil => simp [chunkedAux] at hc
    | cons o os =>
      rw [chunkedAux] at hc
      rcases List.mem_cons.mp hc with h | h
      · subst h
        simp [List.length_take]
      · exact ih _ _ h

theorem chunked_length_le (l : List Bytes) (c : List Bytes) (hc : c ∈ chunked l) :
    c.length ≤ batchSize :=
  chunkedAux_length_le l.length l c hc

theorem mergeBatchedRun_chunkedAux {e : Type} (m : MergeFn e) (fuel : Nat)
    (l : List Bytes) (hn : l.length ≤ fuel) (existing : Option Bytes) :
    mergeBatchedRun m existing (chunkedAux fuel l) = mergeSeq m existing l := by
  induction fuel generalizing l existing with
  | zero =>
    have : l = [] := List.length_eq_zero.mp (Nat.le_zero.mp hn)
    subst this
    rfl
  | succ fuel ih =>
    cases l with
    | nil => rfl
    | cons o os =>
      rw [chunkedAux]
      have hsplit : (o :: os).take batchSize ++ (o :: os).drop batchSize = o :: os :=
        List.take_append_drop batchSize (o :: os)
      have hdrop : ((o :: os).drop batchSize).length ≤ fuel := by
        simp only [List.length_drop, List.length_cons, batchSize]
        simp only [List.length_cons] at hn
        omega
      calc mergeBatchedRun m existing
            ((o :: os).take batchSize :: chunkedAux fuel ((o :: os).drop batchSize))
          = (match mergeBatchDefault m existing ((o :: os).take batchSize) with
             | .error err => .error err
             | .ok v => mergeBatchedRun m v (chunkedAux fuel ((o :: os).drop batchSize))) := rfl
        _ = (match mergeSeq m existing ((o :: os).take batchSize) with
             | .error err => .error err
             | .ok v => mergeSeq m v ((o :: os).drop batchSize)) := by
            rw [mergeBatchDefault_eq]
            cases mergeSeq m existing ((o :: os).take batchSize) with
            | error err => rfl
            | ok v => exact ih _ hdrop _
        _ = mergeSeq m existing ((o :: os).take batchSize ++ (o :: os).drop batchSize) :=
            (mergeSeq_append m _ _ existing).symm
        _ = mergeSeq m existing (o :: os) := by rw [hsplit]

theorem mergeBatchedRun_chunked {e : Type} (m : MergeFn e)
    (l : List Bytes) (existing : Option Bytes) :
    mergeBatchedRun m existing (chunked l) = mergeSeq m existing l :=
  mergeBatchedRun_chunkedAux m l.length l le_rfl existing

/- Helper lemmas about chain splitting and resolution. -/

theorem splitChain_merges_append (ops : List Bytes) (chain : List ValueKind) :
    splitChain (ops.map ValueKind.merge ++ chain) =
      (ops ++ (splitChain chain).1, (splitChain chain).2) := by
  induction ops with
  | nil => simp
  | cons o os ih => simp [splitChain, ih]

theorem resolveSplit_run {e : Type} (m : MergeFn e) (os : List Bytes)
    (b : BaseOutcome) :
    resolveSplit (some m) (os.reverse, b) =
      liftResolve (mergeSeq m (baseValue b) os) := by
  cases hrev : os.reverse with
  | nil =>
    have hos : os = [] := by simpa using congrArg List.reverse hrev
    subst hos
    rfl
  | cons o ops =>
    have hrr : (o :: ops).reverse = os := by
      rw [← hrev, List.reverse_reverse]
    simp [resolveSplit, hrr]

theorem resolveChain_put_base {e : Type} (m : MergeFn e) (os : List Bytes)
    (v : Bytes) (rest : List ValueKind) :
    resolveChain (some m) (os.reverse.map ValueKind.merge ++ ValueKind.put v :: rest) =
      liftResolve (mergeSeq m (some v) os) := by
  have hsplit := splitChain_merges_append os.reverse (ValueKind.put v :: rest)
  have hput : splitChain (ValueKind.put v :: rest) = ([], .putBase v) := rfl
  rw [hput] at hsplit
  simp only [List.append_nil] at hsplit
  rw [resolveChain, hsplit]
  exact resolveSplit_run m os (.putBase v)

theorem resolveChain_no_base {e : Type} (m : MergeFn e) (os : List Bytes) :
    resolveChain (some m) (os.reverse.map ValueKind.merge) =
      liftResolve (mergeSeq m none os) := by
  have hsplit := splitChain_merges_append os.reverse []
  simp only [List.append_nil, splitChain] at hsplit
  rw [resolveChain, hsplit]
  exact resolveSplit_run m os .noBase

/- Helper lemmas about the scanned chain and the write operations. -/

theorem scanChain_append (l1 l2 : List RowEntry) (k : Bytes) (c : Option Nat) :
    scanChain (l1 ++ l2) k c = scanChain l2 k c ++ scanChain l1 k c := by
  simp [scanChain, List.filter_append, List.reverse_append]

theorem scanChain_no_key (log : List RowEntry) (k : Bytes) (c : Option Nat)
    (h : ∀ entry ∈ log, entry.key ≠ k) : scanChain log k c = [] := by
  have hf : log.filter (fun entry => entry.key == k && ceilOk c entry.seq) = [] := by
    apply List.filter_eq_nil_iff.mpr
    intro a ha
    simp only [Bool.and_eq_true, beq_iff_eq, not_and]
    intro hcon _
    exact h a ha hcon
  simp [scanChain, hf]

theorem scanChain_high_seq (log : List RowEntry) (k : Bytes) (s : Nat)
    (h : ∀ entry ∈ log, s < entry.seq) : scanChain log k (some s) = [] := by
  have hf : log.filter (fun entry => entry.key == k && ceilOk (some s) entry.seq) = [] := by
    apply List.filter_eq_nil_iff.mpr
    intro a ha
    simp only [Bool.and_eq_true, beq_iff_eq, ceilOk, decide_eq_true_eq, not_and]
    intro _
    exact not_le.mpr (h a ha)
  simp [scanChain, hf]

theorem writeEntry_log {e : Type} (db : DbState e) (k : Bytes) (vk : ValueKind) :
    (writeEntry db k vk).log = db.log ++
      [{ key := k, kind := vk, seq := db.clock + 1, timestamp := db.clock + 1,
         expireAt := none }] := rfl

theorem chainKinds_writeEntry {e : Type} (db : DbState e) (k : Bytes)
    (vk : ValueKind) :
    chainKinds (writeEntry db k vk) k = vk :: chainKinds db k := by
  simp [chainKinds, writeEntry, scanChain, List.filter_append, List.reverse_append,
    ceilOk, List.filter]

theorem chainKinds_applyMerges {e : Type} (db : DbState e) (k : Bytes)
    (os : List Bytes) :
    chainKinds (applyMerges db k os) k =
      os.reverse.map ValueKind.merge ++ chainKinds db k := by
  induction os generalizing db with
  | nil => simp [applyMerges]
  | cons o os ih =>
    have h1 : chainKinds (mergeKey db k o) k = ValueKind.merge o :: chainKinds db k :=
      chainKinds_writeEntry db k (.merge o)
    calc chainKinds (applyMerges db k (o :: os)) k
        = chainKinds (applyMerges (mergeKey db k o) k os) k := rfl
      _ = os.reverse.map ValueKind.merge ++ chainKinds (mergeKey db k o) k := ih _
      _ = os.reverse.map ValueKind.merge ++ (ValueKind.merge o :: chainKinds db k) := by
          rw [h1]
      _ = (o :: os).reverse.map ValueKind.merge ++ chainKinds db k := by simp

theorem applyMerges_mergeOperator {e : Type} (db : DbState e) (k : Bytes)
    (os : List Bytes) :
    (applyMerges db k os).mergeOperator = db.mergeOperator := by
  induction os generalizing db with
  | nil => rfl
  | cons o os ih => exact ih (mergeKey db k o)

theorem get_eq_resolve {e : Type} (db : DbState e) (k : Bytes) :
    get db k = resolveChain db.mergeOperator (chainKinds db k) := rfl

/- Helper lemmas about the counter operator arithmetic. -/

theorem counterMergeRust_step (j : Nat) (h : j + 1 < 2 ^ 64) :
    counterMergeRust (some (u64ToLe j)) (u64ToLe 1) = .ok (u64ToLe (j + 1)) := by
  have hj : j < 2 ^ 64 := by omega
  have h1 : (1 : Nat) < 2 ^ 64 := by norm_num
  simp [counterMergeRust, decodeU64, u64ToLe_length, leToNat_u64ToLe j hj,
    leToNat_u64ToLe 1 h1, h]
  omega

theorem counterMergeRust_first : counterMergeRust none (u64ToLe 1) = .ok (u64ToLe 1) := by
  have h1 : (1 : Nat) < 2 ^ 64 := by norm_num
  simp [counterMergeRust, decodeU64, u64ToLe_length, leToNat_u64ToLe 1 h1, h1]

theorem mergeSeq_counter_replicate (n j : Nat) (h : j + n < 2 ^ 64) :
    mergeSeq counterMergeRust (some (u64ToLe j)) (List.replicate n (u64ToLe 1)) =
      .ok (some (u64ToLe (j + n))) := by
  induction n generalizing j with
  | zero => simp [mergeSeq]
  | succ n ih =>
    rw [List.replicate_succ]
    simp only [mergeSeq, counterMergeRust_step j (by omega)]
    have harr : j + (n + 1) = (j + 1) + n := by omega
    rw [harr]
    exact ih (j + 1) (by omega)

theorem mergeSeq_counter_from_none (n : Nat) (h0 : 0 < n) (h : n < 2 ^ 64) :
    mergeSeq counterMergeRust none (List.replicate n (u64ToLe 1)) =
      .ok (some (u64ToLe n)) := by
  cases n with
  | zero => omega
  | succ n =>
    rw [List.replicate_succ]
    simp only [mergeSeq, counterMergeRust_first]
    have harr : n + 1 = 1 + n := by omega
    rw [harr]
    exact mergeSeq_counter_replicate n 1 (by omega)

/- Helper lemmas about operation sequences. -/

theorem runOps_mergeOperator {e : Type} (db : DbState e) (ops : List DbOp) :
    (runOps db ops).mergeOperator = db.mergeOperator := by
  induction ops generalizing db with
  | nil => rfl
  | cons op ops ih =>
    calc (runOps db (op :: ops)).mergeOperator
        = (applyOp db op).mergeOperator := ih (applyOp db op)
      _ = db.mergeOperator := by cases op <;> rfl

theorem runOps_decomp {e : Type} (db : DbState e) (ops : List DbOp) :
    ∃ tail, (runOps db ops).log = db.log ++ tail ∧
      (∀ entry ∈ tail, db.clock < entry.seq) ∧ db.clock ≤ (runOps db ops).clock := by
  induction ops generalizing db with
  | nil => exact ⟨[], by simp [runOps], by simp, le_rfl⟩
  | cons op ops ih =>
    obtain ⟨t2, hlog, hseq, hclk⟩ := ih (applyOp db op)
    have hstep : applyOp db op = db ∨ ∃ k vk, applyOp db op = writeEntry db k vk := by
      cases op with
      | opPut k v => exact Or.inr ⟨k, .put v, rfl⟩
      | opMerge k o => exact Or.inr ⟨k, .merge o, rfl⟩
      | opDelete k => exact Or.inr ⟨k, .delete, rfl⟩
      | opGet k => exact Or.inl rfl
    have hrun : runOps db (op :: ops) = runOps (applyOp db op) ops := rfl
    rcases hstep with heq | ⟨k, vk, heq⟩
    · refine ⟨t2, ?_, ?_, ?_⟩
      · rw [hrun, hlog, heq]
      · intro a ha
        have := hseq a ha
        rw [heq] at this
        exact this
      · rw [hrun]
        calc db.clock = (applyOp db op).clock := by rw [heq]
          _ ≤ (runOps (applyOp db op) ops).clock := hclk
    · refine ⟨(⟨k, vk, db.clock + 1, db.clock + 1, none⟩ : RowEntry) :: t2, ?_, ?_, ?_⟩
      · rw [hrun, hlog, heq, writeEntry_log]
        simp
      · intro a ha
        rcases List.mem_cons.mp ha with h | h
        · subst h
          simp
        · have h2 := hseq a h
          have h3 : (applyOp db op).clock = db.clock + 1 := by rw [heq]; rfl
          omega
      · rw [hrun]
        have h3 : (applyOp db op).clock = db.clock + 1 := by rw [heq]; rfl
        omega

theorem runOps_readOnly_fixed {e : Type} (db : DbState e) (ops : List DbOp)
    (h : ∀ op ∈ ops, readOnlyOp op = true) : runOps db ops = db := by
  induction ops with
  | nil => rfl
  | cons op ops ih =>
    have hop : applyOp db op = db := by
      cases op with
      | opGet k => rfl
      | opPut k v => simp [readOnlyOp] at h
      | opMerge k o => simp [readOnlyOp] at h
      | opDelete k => simp [readOnlyOp] at h
    calc runOps db (op :: ops) = runOps (applyOp db op) ops := rfl
      _ = runOps db ops := by rw [hop]
      _ = db := ih (fun o ho => h o (List.mem_cons_of_mem op ho))

theorem mem_scanChain_iff (log : List RowEntry) (k : Bytes) (s : Nat)
    (entry : RowEntry) :
    entry ∈ scanChain log k (some s) ↔
      entry ∈ log ∧ entry.key = k ∧ entry.seq ≤ s := by
  simp [scanChain, List.mem_reverse, List.mem_filter, ceilOk, Bool.and_eq_true,
    beq_iff_eq, decide_eq_true_eq, and_assoc]

theorem createCheckpoint_ok_record {e : Type} (gw : ObjectStoreGateway)
    (db : DbState e) (st : CkptState) (scope : CheckpointScope)
    (opts : CheckpointOptions) (now : Nat) (st2 : CkptState) (c : Checkpoint)
    (h : createCheckpoint gw db st scope opts now = .ok (st2, c)) :
    c = mkCheckpointRecord db st scope opts now := by
  unfold createCheckpoint at h
  cases hput : gw.putBlob (checkpointPath st.nextId)
      (encodeCheckpoint (mkCheckpointRecord db st scope opts now)) with
  | error err =>
    rw [hput] at h
    exact absurd h (by simp)
  | ok u =>
    rw [hput] at h
    simp only [Except.ok.injEq, Prod.mk.injEq] at h
    exact h.2.symm

/- Concrete fixtures used by the witness theorems. -/

/-- A fresh database with the counter operator registered (the configuration
of the example program). -/
def counterDb : DbState CtrErr :=
  { log := [], clock := 0, mergeOperator := some counterMergeRust }

/-- A fresh database with no merge operator registered. -/
def noOpDb : DbState CtrErr :=
  { log := [], clock := 0, mergeOperator := none }

/-- A database with one merge entry and no operator registered. -/
def noOpDbM : DbState CtrErr := mergeKey noOpDb [0] (u64ToLe 1)

/-- A gateway whose durable writes always succeed. -/
def gwOk : ObjectStoreGateway := ⟨fun _ _ => .ok ()⟩

/-- A gateway whose durable writes always fail. -/
def gwBad : ObjectStoreGateway := ⟨fun _ _ => .error .ioFailure⟩

/-- An empty checkpoint manager state. -/
def st0 : CkptState := ⟨[], [], 0⟩

/-- A sample key. -/
def keyA : Bytes := [0]

/-- Another sample key. -/
def keyB : Bytes := [1]

/-- A database holding one put entry for keyA. -/
def dbW : DbState CtrErr := put counterDb keyA (u64ToLe 1)

/-- A sample newest-first chain: two merge operands above a put base. -/
def chainW : List ValueKind :=
  [ValueKind.merge (u64ToLe 1), ValueKind.merge (u64ToLe 2), ValueKind.put (u64ToLe 3)]

/- Claim theorems. -/

/-- C1: for every key whose mutation history ends in a Put(v) followed by
zero or more Merge operands o1..on written in that call order, get returns
the left fold of merge over the operands, oldest first, starting from v;
equivalently at chain level for an arbitrary older history below the Put. -/
theorem put_base_fold_order {e : Type} (db : DbState e) (k v : Bytes)
    (os : List Bytes) (m : MergeFn e) (hreg : db.mergeOperator = some m) :
    get (applyMerges (put db k v) k os) k = liftResolve (mergeSeq m (some v) os)
    ∧ ∀ rest : List ValueKind,
        resolveChain (some m) (os.reverse.map ValueKind.merge ++ ValueKind.put v :: rest) =
          liftResolve (mergeSeq m (some v) os) := by
  constructor
  · rw [get_eq_resolve]
    have hop : (applyMerges (put db k v) k os).mergeOperator = some m := by
      rw [applyMerges_mergeOperator]
      exact hreg
    rw [hop]
    have h2 : chainKinds (put db k v) k = ValueKind.put v :: chainKinds db k :=
      chainKinds_writeEntry db k (.put v)
    have hck : chainKinds (applyMerges (put db k v) k os) k =
        os.reverse.map ValueKind.merge ++ (ValueKind.put v :: chainKinds db k) := by
      rw [chainKinds_applyMerges, h2]
    rw [hck]
    exact resolveChain_put_base m os v (chainKinds db k)
  · intro rest
    exact resolveChain_put_base m os v rest

/-- Witness for C1 at a concrete database: put 5 then merge 1 and merge 2
with the counter operator yields 8. -/
theorem put_base_fold_order_witness :
    get (applyMerges (put counterDb keyA (u64ToLe 5)) keyA [u64ToLe 1, u64ToLe 2]) keyA =
      Except.ok (some (u64ToLe 8)) :=
  ((put_base_fold_order counterDb keyA (u64ToLe 5) [u64ToLe 1, u64ToLe 2]
      counterMergeRust rfl).1).trans (by decide)

/-- C2: for a key with only Merge entries and no Put or Delete base,
resolution folds the operands oldest first starting from an absent existing
value; in particular 10000 merges of the little-endian encoding of 1 with the
counter operator and no prior Put make get return 10000. -/
theorem no_base_fold_absent :
    (∀ (e : Type) (db : DbState e) (k : Bytes) (os : List Bytes) (m : MergeFn e),
        db.mergeOperator = some m → (∀ entry ∈ db.log, entry.key ≠ k) →
        get (applyMerges db k os) k = liftResolve (mergeSeq m none os))
    ∧ get (applyMerges counterDb keyA (List.replicate 10000 (u64ToLe 1))) keyA =
        Except.ok (some (u64ToLe 10000)) := by
  have hgen : ∀ (e : Type) (db : DbState e) (k : Bytes) (os : List Bytes) (m : MergeFn e),
      db.mergeOperator = some m → (∀ entry ∈ db.log, entry.key ≠ k) →
      get (applyMerges db k os) k = liftResolve (mergeSeq m none os) := by
    intro e db k os m hreg hkey
    rw [get_eq_resolve, applyMerges_mergeOperator, hreg]
    have h0 : chainKinds db k = [] := by
      unfold chainKinds
      rw [scanChain_no_key db.log k none hkey]
      rfl
    have hck : chainKinds (applyMerges db k os) k = os.reverse.map ValueKind.merge := by
      rw [chainKinds_applyMerges, h0, List.append_nil]
    rw [hck]
    exact resolveChain_no_base m os
  refine ⟨hgen, ?_⟩
  have h1 := hgen CtrErr counterDb keyA (List.replicate 10000 (u64ToLe 1))
    counterMergeRust rfl (by simp [counterDb])
  rw [h1, mergeSeq_counter_from_none 10000 (by norm_num) (by norm_num)]
  rfl

/-- Witness for C2 at a concrete database: a single merge of 7 with no prior
base resolves to 7. -/
theorem no_base_fold_absent_witness :
    get (applyMerges counterDb keyB [u64ToLe 7]) keyB = Except.ok (some (u64ToLe 7)) :=
  (no_base_fold_absent.1 CtrErr counterDb keyB [u64ToLe 7] counterMergeRust rfl
      (by simp [counterDb])).trans (by decide)

/-- C3: the batched resolver equals the reference resolver on every chain
(so the result is independent of the operand count), and every buffer it
hands to the batched operator has length at most the fixed batch size,
independent of the total number of operands. -/
theorem batched_resolution_bounded (e : Type) (reg : Option (MergeFn e))
    (chain : List ValueKind) :
    resolveBatchedChain reg chain = resolveChain reg chain
    ∧ ∀ b ∈ chunked ((splitChain chain).1.reverse), b.length ≤ batchSize := by
  constructor
  · unfold resolveBatchedChain resolveChain
    cases hsp : splitChain chain with
    | mk ops base =>
      cases ops with
      | nil => rfl
      | cons o os2 =>
        cases reg with
        | none => rfl
        | some m =>
          show liftResolve (mergeBatchedRun m (baseValue base) (chunked ((o :: os2).reverse)))
              = liftResolve (mergeSeq m (baseValue base) ((o :: os2).reverse))
          rw [mergeBatchedRun_chunked]
  · intro b hb
    exact chunked_length_le _ b hb

/-- Witness for C3: concrete chain with two operands over a put base; batched
and reference resolution agree and the single chunk is within the batch
size. -/
theorem batched_resolution_bounded_witness :
    resolveBatchedChain (some counterMergeRust) chainW =
      resolveChain (some counterMergeRust) chainW
    ∧ [u64ToLe 2, u64ToLe 1].length ≤ batchSize :=
  ⟨(batched_resolution_bounded CtrErr (some counterMergeRust) chainW).1,
   (batched_resolution_bounded CtrErr (some counterMergeRust) chainW).2
     [u64ToLe 2, u64ToLe 1] (by decide)⟩

/-- C4: for every existing base value (possibly absent) and every ordered
operand run, the default merge_batch equals sequentially applying merge to
each operand of the run in the same order. -/
theorem mergeBatch_equiv_seq (e : Type) (m : MergeFn e) (existing : Option Bytes)
    (operands : List Bytes) :
    mergeBatchDefault m existing operands = mergeSeq m existing operands :=
  mergeBatchDefault_eq m existing operands

/-- C5: a get after a Delete with no later Put or Merge returns absent
regardless of any entries before the delete, and resolution of a chain whose
newest entry is a Delete ignores everything below the delete. -/
theorem delete_terminates_resolution :
    (∀ (e : Type) (db : DbState e) (k : Bytes),
        get (deleteKey db k) k = Except.ok none)
    ∧ (∀ (e : Type) (reg : Option (MergeFn e)) (rest : List ValueKind),
        resolveChain reg (ValueKind.delete :: rest) = Except.ok none) := by
  have hchain : ∀ (e : Type) (reg : Option (MergeFn e)) (rest : List ValueKind),
      resolveChain reg (ValueKind.delete :: rest) = Except.ok none := by
    intro e reg rest
    rfl
  refine ⟨?_, hchain⟩
  intro e db k
  rw [get_eq_resolve]
  have h : chainKinds (deleteKey db k) k = ValueKind.delete :: chainKinds db k :=
    chainKinds_writeEntry db k .delete
  rw [h]
  exact hchain e _ _

/-- C6: a checkpoint pins the sequence number current at creation; resolution
bounded by that ceiling is unaffected by any later operations (their entries
carry larger sequence numbers even though durable), every durable entry for
the key with sequence number at most the pin is visible in the bounded scan,
and everything the bounded scan returns is at most the pin. -/
theorem checkpoint_sequence_visibility (e : Type) (gw : ObjectStoreGateway)
    (db : DbState e) (st : CkptState) (scope : CheckpointScope)
    (opts : CheckpointOptions) (now : Nat) (st2 : CkptState) (c : Checkpoint)
    (h : createCheckpoint gw db st scope opts now = .ok (st2, c))
    (ops : List DbOp) (k : Bytes) :
    getAt (runOps db ops) k (some c.sequenceNumber) = getAt db k (some c.sequenceNumber)
    ∧ (∀ entry ∈ (runOps db ops).log, entry.key = k → entry.seq ≤ c.sequenceNumber →
        entry ∈ scanChain (runOps db ops).log k (some c.sequenceNumber))
    ∧ (∀ entry ∈ scanChain (runOps db ops).log k (some c.sequenceNumber),
        entry.seq ≤ c.sequenceNumber) := by
  have hrec : c = mkCheckpointRecord db st scope opts now :=
    createCheckpoint_ok_record gw db st scope opts now st2 c h
  have hseq : c.sequenceNumber = db.clock := by
    rw [hrec]
    rfl
  obtain ⟨tail, hlog, htail, hclk⟩ := runOps_decomp db ops
  refine ⟨?_, ?_, ?_⟩
  · unfold getAt
    rw [runOps_mergeOperator, hlog, hseq, scanChain_append,
      scanChain_high_seq tail k db.clock htail]
    simp
  · intro entry hmem hkey hle
    exact (mem_scanChain_iff _ _ _ _).mpr ⟨hmem, hkey, hle⟩
  · intro entry hmem
    exact ((mem_scanChain_iff _ _ _ _).mp hmem).2.2

/-- Witness for C6: checkpoint taken on a one-entry database; a later put is
invisible through the pinned ceiling. -/
theorem checkpoint_sequence_visibility_witness :
    getAt (runOps dbW [DbOp.opPut keyA (u64ToLe 9)]) keyA
        (some (mkCheckpointRecord dbW st0 CheckpointScope.all ⟨none⟩ 0).sequenceNumber)
      = getAt dbW keyA
        (some (mkCheckpointRecord dbW st0 CheckpointScope.all ⟨none⟩ 0).sequenceNumber) :=
  (checkpoint_sequence_visibility CtrErr gwOk dbW st0 CheckpointScope.all ⟨none⟩ 0
      _ _ rfl [DbOp.opPut keyA (u64ToLe 9)] keyA).1

/-- C7: when the durable write of the checkpoint record fails, the whole
create_checkpoint call fails with a persistence error and has no effect: the
manager state is unchanged, no checkpoint becomes visible, no manifest is
pinned, and no successful result exists. -/
theorem checkpoint_persist_failure_no_effect (e : Type) (gw : ObjectStoreGateway)
    (db : DbState e) (st : CkptState) (scope : CheckpointScope)
    (opts : CheckpointOptions) (now : Nat) (err : StoreError)
    (hfail : ∀ p b, gw.putBlob p b = .error err) :
    createCheckpointRun gw db st scope opts now = (st, .error (.persistence err))
    ∧ (createCheckpointRun gw db st scope opts now).1.checkpoints = st.checkpoints
    ∧ (createCheckpointRun gw db st scope opts now).1.pinnedManifests = st.pinnedManifests
    ∧ ∀ (st2 : CkptState) (c : Checkpoint),
        createCheckpoint gw db st scope opts now ≠ .ok (st2, c) := by
  have hcc : createCheckpoint gw db st scope opts now = .error (.persistence err) := by
    unfold createCheckpoint
    rw [hfail]
  have hrun : createCheckpointRun gw db st scope opts now =
      (st, .error (.persistence err)) := by
    unfold createCheckpointRun
    rw [hcc]
  refine ⟨hrun, by rw [hrun], by rw [hrun], ?_⟩
  intro st2 c hok
  rw [hcc] at hok
  exact absurd hok (by simp)

/-- Witness for C7: a failing gateway leaves the empty manager state
unchanged and yields the persistence error. -/
theorem checkpoint_persist_failure_no_effect_witness :
    createCheckpointRun gwBad counterDb st0 CheckpointScope.all ⟨none⟩ 0 =
      (st0, Except.error (CheckpointError.persistence StoreError.ioFailure)) :=
  (checkpoint_persist_failure_no_effect CtrErr gwBad counterDb st0 CheckpointScope.all
      ⟨none⟩ 0 StoreError.ioFailure (fun _ _ => rfl)).1

/-- C8: if resolution encounters any Merge operand while no merge operator is
registered, it fails immediately with the configuration error and returns no
value, both at chain level and through get. -/
theorem mergeConfiguration_on_missing_op :
    (∀ (e : Type) (chain : List ValueKind), (splitChain chain).1 ≠ [] →
        resolveChain (none : Option (MergeFn e)) chain =
          Except.error ResolveError.mergeConfiguration)
    ∧ (∀ (e : Type) (db : DbState e) (k : Bytes), db.mergeOperator = none →
        (splitChain (chainKinds db k)).1 ≠ [] →
        get db k = Except.error ResolveError.mergeConfiguration
        ∧ ∀ v : Option Bytes, get db k ≠ Except.ok v) := by
  have hchain : ∀ (e : Type) (chain : List ValueKind), (splitChain chain).1 ≠ [] →
      resolveChain (none : Option (MergeFn e)) chain =
        Except.error ResolveError.mergeConfiguration := by
    intro e chain hne
    unfold resolveChain
    cases hsp : splitChain chain with
    | mk ops base =>
      cases ops with
      | nil =>
        rw [hsp] at hne
        simp at hne
      | cons o os2 => rfl
  refine ⟨hchain, ?_⟩
  intro e db k hreg hne
  have hget : get db k = Except.error ResolveError.mergeConfiguration := by
    rw [get_eq_resolve, hreg]
    exact hchain e _ hne
  refine ⟨hget, ?_⟩
  intro v hok
  rw [hget] at hok
  exact absurd hok (by simp)

/-- Witness for C8: one merge entry and no registered operator make get fail
with the configuration error. -/
theorem mergeConfiguration_on_missing_op_witness :
    get noOpDbM keyA = Except.error ResolveError.mergeConfiguration :=
  (mergeConfiguration_on_missing_op.2 CtrErr noOpDbM keyA rfl (by decide)).1

/-- C9: the counter operator is total with an unreachable Err branch: it
returns Ok exactly when the existing value (if present) and the operand are
8 bytes long and the decoded sum does not overflow a u64; any other length
panics with the failed slice conversion, and it never returns the
MergeOperatorError variant. -/
theorem counterMerge_totality (existingValue : Option Bytes) (value : Bytes) :
    (∀ err : MergeOperatorError,
        counterMergeRust existingValue value ≠ Except.error (Sum.inr err))
    ∧ ((∃ b, counterMergeRust existingValue value = Except.ok b) ↔
        (existingLenOk existingValue = true ∧ value.length = 8 ∧
          existingVal existingValue + leToNat value < 2 ^ 64))
    ∧ ((existingLenOk existingValue = false ∨ value.length ≠ 8) →
        counterMergeRust existingValue value = Except.error (Sum.inl RustPanic.badLength)) := by
  have hbase : (match existingValue with
      | none => Except.ok 0
      | some v => decodeU64 v) =
        (if existingLenOk existingValue = true then Except.ok (existingVal existingValue)
         else Except.error RustPanic.badLength) := by
    cases existingValue with
    | none => simp [existingLenOk, existingVal]
    | some ev =>
      by_cases he : ev.length = 8
      · simp [existingLenOk, existingVal, decodeU64, he]
      · simp [existingLenOk, existingVal, decodeU64, he]
  by_cases he : existingLenOk existingValue = true
  · by_cases hv : value.length = 8
    · by_cases hs : existingVal existingValue + leToNat value < 2 ^ 64
      · have hc : counterMergeRust existingValue value =
            Except.ok (u64ToLe (existingVal existingValue + leToNat value)) := by
          rw [counterMergeRust.eq_def, hbase]
          simp [he, decodeU64, hv, hs]
          omega
        refine ⟨?_, ?_, ?_⟩
        · intro err
          rw [hc]
          simp
        · constructor
          · intro _
            exact ⟨he, hv, hs⟩
          · intro _
            exact ⟨_, hc⟩
        · intro hcon
          rcases hcon with hcon | hcon
          · rw [he] at hcon
            cases hcon
          · exact absurd hv hcon
      · have hc : counterMergeRust existingValue value =
            Except.error (Sum.inl RustPanic.addOverflow) := by
          rw [counterMergeRust.eq_def, hbase]
          simp [he, decodeU64, hv, hs]
          omega
        refine ⟨?_, ?_, ?_⟩
        · intro err
          rw [hc]
          simp
        · constructor
          · intro hex
            rcases hex with ⟨b, hb⟩
            rw [hc] at hb
            exact absurd hb (by simp)
          · intro hok
            exact absurd hok.2.2 hs
        · intro hcon
          rcases hcon with hcon | hcon
          · rw [he] at hcon
            cases hcon
          · exact absurd hv hcon
    · have hc : counterMergeRust existingValue value =
          Except.error (Sum.inl RustPanic.badLength) := by
        rw [counterMergeRust.eq_def, hbase]
        simp [he, decodeU64, hv]
      refine ⟨?_, ?_, ?_⟩
      · intro err
        rw [hc]
        simp
      · constructor
        · intro hex
          rcases hex with ⟨b, hb⟩
          rw [hc] at hb
          exact absurd hb (by simp)
        · intro hok
          exact absurd hok.2.1 hv
      · intro _
        exact hc
  · have hc : counterMergeRust existingValue value =
        Except.error (Sum.inl RustPanic.badLength) := by
      rw [counterMergeRust.eq_def, hbase]
      simp [he]
    refine ⟨?_, ?_, ?_⟩
    · intro err
      rw [hc]
      simp
    · constructor
      · intro hex
        rcases hex with ⟨b, hb⟩
        rw [hc] at hb
        exact absurd hb (by simp)
      · intro hok
        exact absurd hok.1 he
    · intro _
      exact hc

/-- Witness for C9: a 3-byte existing value panics on the slice conversion,
and a well-formed pair of 8-byte values returns the encoded sum. -/
theorem counterMerge_totality_witness :
    counterMergeRust (some [1, 2, 3]) (u64ToLe 1) =
      Except.error (Sum.inl RustPanic.badLength)
    ∧ counterMergeRust (some (u64ToLe 2)) (u64ToLe 3) = Except.ok (u64ToLe 5) :=
  ⟨(counterMerge_totality (some [1, 2, 3]) (u64ToLe 1)).2.2 (Or.inl (by decide)),
   by decide⟩

/-- C10: get is deterministic and mutation-free: any sequence of reads leaves
the database state unchanged, so two gets with no intervening writes return
equal results, and a single get is the identity on state. -/
theorem get_pure_no_mutation (e : Type) (db : DbState e) (ops : List DbOp)
    (k : Bytes) (h : ∀ op ∈ ops, readOnlyOp op = true) :
    runOps db ops = db ∧ get (runOps db ops) k = get db k
    ∧ applyOp db (DbOp.opGet k) = db := by
  have hfix := runOps_readOnly_fixed db ops h
  exact ⟨hfix, by rw [hfix], rfl⟩

/-- Witness for C10: two consecutive gets on the counter database leave it
unchanged and agree. -/
theorem get_pure_no_mutation_witness :
    runOps counterDb [DbOp.opGet keyA, DbOp.opGet keyA] = counterDb
    ∧ get (runOps counterDb [DbOp.opGet keyA, DbOp.opGet keyA]) keyA = get counterDb keyA
    ∧ applyOp counterDb (DbOp.opGet keyA) = counterDb :=
  get_pure_no_mutation CtrErr counterDb [DbOp.opGet keyA, DbOp.opGet keyA] keyA
    (by decide)

end SlateDB
